import Mathlib

/-!
Verification of the microchipboot host-side programmer.

This file gives a shallow embedding of the Go implementation:
`bootloader.go` (command framing), the serial transport codec
(`serialBootloader.send` / `Reset`), and the programming engine
(`programmer.go`, `programmer_pic8.go`: segment classification,
erase/write block assembly, checksum verification).

Machine integers are modelled as `Nat` with explicit reductions modulo
`2^8`, `2^16`, `2^32` at the points where the Go code truncates.
-/

namespace Microchipboot

/-- Little-endian encoding of `v` into `n` bytes, as produced by Go's
`binary.Write(buf, binary.LittleEndian, v)` on an `n`-byte unsigned type. -/
def leBytes : Nat → Nat → List Nat
  | 0, _ => []
  | n + 1, v => v % 256 :: leBytes n (v / 256)


/-- `bootloader.go`: the `Command` struct.  `command` is `uint8`,
`unlockSequence` a `[2]byte` pair, `address` `uint32`, `length` `uint16`,
`data` a byte slice; `responseLength` and `expectsSuccessCode` are the
codec-only fields. -/
structure Command where
  command : Nat
  unlockSequence : Nat × Nat
  address : Nat
  length : Nat
  data : List Nat
  responseLength : Nat
  expectsSuccessCode : Bool
deriving DecidableEq, Repr


/-- `bootloader.go` `Command.GetBytes`: opcode, then the 2-byte LE length
(overridden by `uint16(len(Data))` when a payload is present), the two
unlock bytes, the 4-byte LE address, then the payload.  `leBytes` performs
the `uint16`/`uint32` truncation that Go's typed write performs. -/
def Command.GetBytes (c : Command) : List Nat :=
  c.command ::
    (leBytes 2 (if 0 < c.data.length then c.data.length else c.length) ++
      [c.unlockSequence.1, c.unlockSequence.2] ++
      leBytes 4 c.address ++ c.data)


/-- `bootloader.go` `NewGetVersionCommand`. -/
def NewGetVersionCommand : Command :=
  { command := 0x00, unlockSequence := (0, 0), address := 0, length := 0
    data := [], responseLength := 16, expectsSuccessCode := false }


/-- `bootloader.go` `NewReadFlashCommand`. -/
def NewReadFlashCommand (address length : Nat) : Command :=
  { command := 0x01, unlockSequence := (0, 0), address := address, length := length
    data := [], responseLength := length, expectsSuccessCode := false }


/-- `bootloader.go` `NewWriteFlashCommand`. -/
def NewWriteFlashCommand (address : Nat) (data : List Nat) : Command :=
  { command := 0x02, unlockSequence := (0x55, 0xAA), address := address
    length := data.length % 65536, data := data
    responseLength := 0, expectsSuccessCode := true }


/-- `bootloader.go` `NewEraseFlashCommand`. -/
def NewEraseFlashCommand (address numRows : Nat) : Command :=
  { command := 0x03, unlockSequence := (0x55, 0xAA), address := address
    length := numRows, data := [], responseLength := 0, expectsSuccessCode := true }


/-- `bootloader.go` `NewReadEECommand`. -/
def NewReadEECommand (address length : Nat) : Command :=
  { command := 0x04, unlockSequence := (0, 0), address := address, length := length
    data := [], responseLength := length, expectsSuccessCode := false }


/-- `bootloader.go` `NewWriteEECommand`. -/
def NewWriteEECommand (address : Nat) (data : List Nat) : Command :=
  { command := 0x05, unlockSequence := (0x55, 0xAA), address := address
    length := data.length % 65536, data := data
    responseLength := 0, expectsSuccessCode := true }


/-- `bootloader.go` `NewReadConfigCommand`. -/
def NewReadConfigCommand (address length : Nat) : Command :=
  { command := 0x06, unlockSequence := (0, 0), address := address, length := length
    data := [], responseLength := length, expectsSuccessCode := false }


/-- `bootloader.go` `NewWriteConfigCommand`. -/
def NewWriteConfigCommand (address : Nat) (data : List Nat) : Command :=
  { command := 0x07, unlockSequence := (0x55, 0xAA), address := address
    length := data.length % 65536, data := data
    responseLength := 0, expectsSuccessCode := true }


/-- `bootloader.go` `NewCalculateChecksumCommand`. -/
def NewCalculateChecksumCommand (address length : Nat) : Command :=
  { command := 0x08, unlockSequence := (0, 0), address := address, length := length
    data := [], responseLength := 2, expectsSuccessCode := false }


/-- `bootloader.go` `NewResetCommand`. -/
def NewResetCommand : Command :=
  { command := 0x09, unlockSequence := (0, 0), address := 0, length := 0
    data := [], responseLength := 0, expectsSuccessCode := false }


/-! ## Serial codec: `serialBootloader.send` and `Reset` -/

/-- Errors surfaced by `serialBootloader.send`. -/
inductive SendError where
  | ioError : SendError
  | echoMismatch (pos : Nat) : SendError
  | commandRejected (code : Nat) : SendError
deriving DecidableEq, Repr


/-- `serialBootloader.recv`: read exactly `n` bytes from the input stream,
failing (I/O error or timeout) when the stream cannot supply them.
Returns the bytes read and the unconsumed remainder. -/
def recvExact (n : Nat) (input : List Nat) : Option (List Nat × List Nat) :=
  if n ≤ input.length then some (input.take n, input.drop n) else none


/-- The echo-comparison loop of `serialBootloader.send`: scan `fuel`
indices upward from `i`, skipping offsets 4 and 5, and return the first
index at which `tx` and `echo` disagree. -/
def echoScan (tx echo : List Nat) : Nat → Nat → Option Nat
  | _, 0 => none
  | i, fuel + 1 =>
    if i ≠ 4 ∧ i ≠ 5 ∧ tx.getD i 0 ≠ echo.getD i 0 then some i
    else echoScan tx echo (i + 1) fuel


/-- Final step of `send`: read the declared response payload, if any. -/
def readResponse (cmd : Command) (input : List Nat) :
    Except SendError (List Nat × List Nat) :=
  if 0 < cmd.responseLength then
    match recvExact cmd.responseLength input with
    | none => .error .ioError
    | some (resp, rest) => .ok (resp, rest)
  else .ok ([], input)


/-- The part of `send` after the echo exchange: the success byte (when the
command expects one), then the response payload. -/
def afterEcho (cmd : Command) (input : List Nat) :
    Except SendError (List Nat × List Nat) :=
  if cmd.expectsSuccessCode then
    match recvExact 1 input with
    | none => .error .ioError
    | some (code, rest) =>
      if code.getD 0 0 ≠ 0x01 then .error (.commandRejected (code.getD 0 0))
      else readResponse cmd rest
  else readResponse cmd input


/-- `serialBootloader.send`, over an explicit input byte stream standing
for the serial line: transmit `0x55 ∥ GetBytes`, read back
`len(tx) − len(cmd.Data)` echo bytes, compare them to the transmitted
bytes outside offsets 4 and 5, then run the success-byte and response
steps.  Returns the response bytes and the unconsumed input. -/
def send (cmd : Command) (input : List Nat) :
    Except SendError (List Nat × List Nat) :=
  let tx := 0x55 :: cmd.GetBytes
  let echoLen := tx.length - cmd.data.length
  match recvExact echoLen input with
  | none => .error .ioError
  | some (echo, rest) =>
    match echoScan tx echo 0 echoLen with
    | some i => .error (.echoMismatch i)
    | none => afterEcho cmd rest


/-- Offset `i` is a fatal echo divergence: not one of the unlock offsets
4 and 5, and the transmitted and echoed bytes differ there. -/
def MismatchAt (tx echo : List Nat) (i : Nat) : Prop :=
  i ≠ 4 ∧ i ≠ 5 ∧ tx.getD i 0 ≠ echo.getD i 0


instance (tx echo : List Nat) (i : Nat) : Decidable (MismatchAt tx echo i) := by
  unfold MismatchAt
  infer_instance


/-- `serialBootloader.Reset`: issue the Reset command through `send`;
`some e` models the Go method returning (a wrapping of) the error `e`,
`none` models a nil error. -/
def serialReset (input : List Nat) : Option SendError :=
  match send NewResetCommand input with
  | .error e => some e
  | .ok _ => none


/-! ## Programming engine: segment classification (`pic8Programmer.LoadHex`) -/

/-- `gohex.DataSegment`: an address-tagged contiguous run of bytes
produced by the HEX parser.  `address` is `uint32`. -/
structure DataSegment where
  address : Nat
  data : List Nat
deriving DecidableEq, Repr


/-- `PIC8Profile`: the device memory map.  All fields are `uint32`. -/
structure PIC8Profile where
  bootloaderOffset : Nat
  flashSize : Nat
  eepromOffset : Nat
  eepromSize : Nat
  configOffset : Nat
  configSize : Nat
  idOffset : Nat
  idSize : Nat
deriving DecidableEq, Repr


/-- The segment-holding state of a `pic8Programmer`: the cached parsed
memory and the four classified region sequences. -/
structure Pic8State where
  memory : Option (List DataSegment)
  flash : List DataSegment
  config : List DataSegment
  eeprom : List DataSegment
  id : List DataSegment
deriving DecidableEq, Repr


/-- The state of a freshly created programmer (`NewPIC8Programmer`). -/
def initialState : Pic8State :=
  { memory := none, flash := [], config := [], eeprom := [], id := [] }


/-- Go `uint32` subtraction `a - b` (wrapping). -/
def sub32 (a b : Nat) : Nat :=
  (a % 4294967296 + (4294967296 - b % 4294967296)) % 4294967296


/-- `LoadHex`'s `validSegment` closure at Go `uint32` semantics:
`s.Address >= start && s.Address + uint32(len(s.Data)) <= start + length`. -/
def validSegment (s : DataSegment) (start len : Nat) : Bool :=
  decide (start % 4294967296 ≤ s.address % 4294967296) &&
    decide ((s.address + s.data.length) % 4294967296 ≤ (start + len) % 4294967296)


/-- The four memory regions a segment can classify into. -/
inductive Region where
  | flash : Region
  | id : Region
  | config : Region
  | eeprom : Region
deriving DecidableEq, Repr


/-- The classification order of `LoadHex`'s switch: flash first (with the
code's `FlashSize - BootloaderOffset` length argument), then ID, config,
EEPROM. -/
def classifySegment (p : PIC8Profile) (s : DataSegment) : Option Region :=
  if validSegment s p.bootloaderOffset (sub32 p.flashSize p.bootloaderOffset) then
    some .flash
  else if validSegment s p.idOffset p.idSize then some .id
  else if validSegment s p.configOffset p.configSize then some .config
  else if validSegment s p.eepromOffset p.eepromSize then some .eeprom
  else none


/-- Flash normalization on load: `len(Data)&1 == 1` appends one `0xFF`. -/
def padFlash (d : List Nat) : List Nat :=
  if d.length &&& 1 == 1 then d ++ [0xFF] else d


/-- Config normalization on load: rewrite every `0xFF` byte to `0x00`. -/
def fixConfig (d : List Nat) : List Nat :=
  d.map fun b => if b == 0xFF then 0 else b


/-- The classification loop of `LoadHex`: append each segment to the
first matching region (after its normalization), or stop with the
offending address when a segment matches no region. -/
def loadSegments (p : PIC8Profile) (st : Pic8State) :
    List DataSegment → Pic8State × Option Nat
  | [] => (st, none)
  | s :: rest =>
    match classifySegment p s with
    | some .flash =>
      loadSegments p
        { st with flash := st.flash ++ [⟨s.address, padFlash s.data⟩] } rest
    | some .id => loadSegments p { st with id := st.id ++ [s] } rest
    | some .config =>
      loadSegments p
        { st with config := st.config ++ [⟨s.address, fixConfig s.data⟩] } rest
    | some .eeprom => loadSegments p { st with eeprom := st.eeprom ++ [s] } rest
    | none => (st, some s.address)


/-- `pic8Programmer.LoadHex` after a successful parse: cache the parsed
memory, then classify its segments. -/
def LoadHex (p : PIC8Profile) (st : Pic8State) (segs : List DataSegment) :
    Pic8State × Option Nat :=
  loadSegments p { st with memory := some segs } segs


/-- Modelled from the spec's words, for comparison with `validSegment`:
segment `s` fits region `[start, stop)` iff `s.address ≥ start` and
`s.address + len(s.data) ≤ stop`. -/
def specFits (s : DataSegment) (start stop : Nat) : Bool :=
  decide (start ≤ s.address) && decide (s.address + s.data.length ≤ stop)


/-- Modelled from the spec's words, for comparison with
`classifySegment`: try flash `[bootloader_offset, flash_size)`, then
ID `[id_offset, id_offset+id_size)`, config
`[config_offset, config_offset+config_size)`, EEPROM
`[eeprom_offset, eeprom_offset+eeprom_size)`, in that order. -/
def specRegion (p : PIC8Profile) (s : DataSegment) : Option Region :=
  if specFits s p.bootloaderOffset p.flashSize then some .flash
  else if specFits s p.idOffset (p.idOffset + p.idSize) then some .id
  else if specFits s p.configOffset (p.configOffset + p.configSize) then some .config
  else if specFits s p.eepromOffset (p.eepromOffset + p.eepromSize) then some .eeprom
  else none


/-- Representability of a profile in `uint32` with non-wrapping region
ends. -/
def ProfileBounds (p : PIC8Profile) : Prop :=
  p.bootloaderOffset < 4294967296 ∧ p.flashSize < 4294967296 ∧
    p.idOffset + p.idSize < 4294967296 ∧
    p.configOffset + p.configSize < 4294967296 ∧
    p.eepromOffset + p.eepromSize < 4294967296


/-- Representability of a segment in `uint32` without end-address wrap. -/
def SegBounds (s : DataSegment) : Prop :=
  s.address < 4294967296 ∧ s.address + s.data.length < 4294967296


/-! ## Programming engine: `eraseSegments` -/

/-- Bitwise NOT of a `uint32` value (`^x` in Go). -/
def notMask32 (x : Nat) : Nat := 4294967295 - x % 4294967296


/-- The row alignment `x & ^uint32(rowSize-1)` used by `eraseSegments`
(on segment addresses with the erase row size) and by `writeSegments`
(on byte addresses with the write row size). -/
def alignDown32 (addr e : Nat) : Nat :=
  (addr % 4294967296) &&& notMask32 ((e - 1) % 4294967296)


/-- Ceiling division. -/
def ceilDiv (a b : Nat) : Nat := (a + b - 1) / b


/-- `eraseSegments`' row count:
`uint16(math.Ceil(float64((Address + uint32(len(Data))) - start) / float64(e)))`.
For a power-of-two `e` the float64 quotient is exact, so `math.Ceil` of it
is the integer ceiling, modelled by `ceilDiv`; the `uint16` conversion is
the final reduction. -/
def eraseNum (s : DataSegment) (e : Nat) : Nat :=
  (ceilDiv (((s.address + s.data.length) % 4294967296 +
      (4294967296 - alignDown32 s.address e)) % 4294967296) e) % 65536


/-- `programmer.go` `eraseSegments`: issue one EraseFlash per segment in
order, aborting on the first failure with that row address.  Returns the
issued commands and the error address, if any. -/
def eraseSegments (e : Nat) (f : Nat → Nat → Option Unit) :
    List DataSegment → List (Nat × Nat) × Option Nat
  | [] => ([], none)
  | s :: rest =>
    match f (alignDown32 s.address e) (eraseNum s e) with
    | none => ([(alignDown32 s.address e, eraseNum s e)], some (alignDown32 s.address e))
    | some () =>
      ((alignDown32 s.address e, eraseNum s e) :: (eraseSegments e f rest).1,
        (eraseSegments e f rest).2)


/-! ## Programming engine: checksum verification -/

/-- Errors surfaced by `verifySegmentsByChecksum`. -/
inductive VerifyError where
  | io (addr : Nat) : VerifyError
  | mismatch (addr picsum localsum : Nat) : VerifyError
deriving DecidableEq, Repr


/-- The local-checksum loop of `verifySegmentsByChecksum`:
`localsum += uint16(chunk[i]) + uint16(chunk[i+1]) << 8` with `i`
stepping by 2 over a `uint16` accumulator; `none` models the
out-of-range access `chunk[i+1]` on an odd-length chunk. -/
def localChecksum : List Nat → Option Nat
  | [] => some 0
  | [_] => none
  | b0 :: b1 :: rest =>
    (localChecksum rest).map fun acc => (b0 + b1 * 256 + acc) % 65536


/-- One segment's chunk walk in `verifySegmentsByChecksum`
(`maxChecksumChunk = math.MaxUint16 - 1 = 65534`): take up to 65534
bytes, ask the device oracle `f` (standing for
`bootloader.CalculateChecksum`) for the chunk's checksum — the `uint16`
conversion of the length is the identity because a chunk is at most
65534 bytes — compare with the local checksum, and walk on.  The outer
`none` models the local loop's out-of-range panic. -/
def verifyChunks (f : Nat → Nat → Option Nat) (addr : Nat) (d : List Nat) :
    Option (Except VerifyError Unit) :=
  if h : d = [] then some (.ok ())
  else
    match f (addr % 4294967296) (d.take 65534).length with
    | none => some (.error (.io (addr % 4294967296)))
    | some picsum =>
      match localChecksum (d.take 65534) with
      | none => none
      | some localsum =>
        if picsum ≠ localsum then
          some (.error (.mismatch (addr % 4294967296) picsum localsum))
        else verifyChunks f (addr + 65534) (d.drop 65534)
termination_by d.length
decreasing_by
  simp only [List.length_drop]
  have hd : 0 < d.length := List.length_pos.mpr h
  omega


/-- `programmer.go` `verifySegmentsByChecksum`: walk the segments in
order, stopping at the first chunk failure. -/
def verifySegmentsByChecksum (f : Nat → Nat → Option Nat) :
    List DataSegment → Option (Except VerifyError Unit)
  | [] => some (.ok ())
  | s :: rest =>
    match verifyChunks f s.address s.data with
    | some (.ok ()) => verifySegmentsByChecksum f rest
    | r => r


/-- `pic8Programmer.verifyByChecksum`: only flash is checksummed. -/
def verifyByChecksum (st : Pic8State) (f : Nat → Nat → Option Nat) :
    Option (Except VerifyError Unit) :=
  verifySegmentsByChecksum f st.flash


/-- The chunk decomposition induced by the walk: address-tagged runs of
at most 65534 bytes. -/
def chunkList (addr : Nat) (d : List Nat) : List (Nat × List Nat) :=
  if h : d = [] then []
  else (addr, d.take 65534) :: chunkList (addr + 65534) (d.drop 65534)
termination_by d.length
decreasing_by
  simp only [List.length_drop]
  have hd : 0 < d.length := List.length_pos.mpr h
  omega


/-- All chunks of a segment list, in walk order. -/
def allChunks (segs : List DataSegment) : List (Nat × List Nat) :=
  segs.flatMap fun s => chunkList s.address s.data


/-- The spec's checksum formula: the sum modulo 2^16, over even indices
`i`, of the little-endian words `data[i] + (data[i+1] << 8)`. -/
def wordSum (d : List Nat) : Nat :=
  ((Finset.range (d.length / 2)).sum
    fun j => d.getD (2 * j) 0 + d.getD (2 * j + 1) 0 * 256) % 65536


/-! ## Programming engine: `writeSegments` block assembly -/

/-- One byte store of `writeSegments`: align the byte address down to the
write row (`byteAddress & ^uint32(writeRowSize-1)`), create the row's
block filled with `0xFF` if absent, and write the byte at its offset
within the block. -/
def putByte (w : Nat) (m : Nat → Option (List Nat)) (byteAddr b : Nat) :
    Nat → Option (List Nat) :=
  fun r =>
    if r = alignDown32 byteAddr w then
      some (((m (alignDown32 byteAddr w)).getD (List.replicate w 0xFF)).set
        (byteAddr % 4294967296 - alignDown32 byteAddr w) b)
    else m r


/-- The inner loop of `writeSegments` over one segment's bytes
(`byteAddress := segment.Address + uint32(i)`). -/
def putBytes (w : Nat) : (Nat → Option (List Nat)) → Nat → List Nat →
    Nat → Option (List Nat)
  | m, _, [] => m
  | m, a, b :: rest => putBytes w (putByte w m a b) (a + 1) rest


/-- `programmer.go` `writeSegments`' block map: merge all segments into
row-aligned `0xFF`-padded blocks.  The Go map is modelled as a function
from row addresses to optional blocks; the map's iteration order when
the blocks are later written does not affect their content. -/
def buildBlocks (segs : List DataSegment) (w : Nat) : Nat → Option (List Nat) :=
  segs.foldl (fun m s => putBytes w m s.address s.data) fun _ => none


/-- The byte the segment list assigns to address `a`: the last covering
segment wins, matching the overwrite order of `writeSegments`. -/
def assigns (segs : List DataSegment) (a : Nat) : Option Nat :=
  segs.foldl (fun acc s =>
    if s.address ≤ a ∧ a < s.address + s.data.length then
      some (s.data.getD (a - s.address) 0)
    else acc) none


/-- Address `a` carries a byte of at least one segment. -/
def Covered (segs : List DataSegment) (a : Nat) : Prop :=
  ∃ s ∈ segs, s.address ≤ a ∧ a < s.address + s.data.length


/-- The block map `m` realises the partial byte assignment `val`: rows
are exactly the aligned addresses with at least one assigned byte, every
block is `w` bytes, and each block position holds its assigned byte or
the `0xFF` filler. -/
def Models (w : Nat) (m : Nat → Option (List Nat)) (val : Nat → Option Nat) :
    Prop :=
  ∀ row : Nat,
    ((m row).isSome ↔ row % w = 0 ∧ ∃ pos, pos < w ∧ (val (row + pos)).isSome) ∧
    ∀ blk, m row = some blk → blk.length = w ∧
      ∀ pos, pos < w → blk.getD pos 0 = (val (row + pos)).getD 0xFF


/-- Claim C1: the encoded frame is opcode, 2-byte LE length, the two unlock
bytes, 4-byte LE address, then the payload; with a non-empty payload the
emitted length field is the payload byte count, whatever the caller-supplied
length was; and the unlock pair is `(0x55, 0xAA)` exactly for the
WriteFlash, EraseFlash, WriteEE and WriteConfig constructors and `(0, 0)`
for every other command constructor. -/
theorem claim_C1 :
    (∀ c : Command, c.data ≠ [] → c.data.length < 65536 → c.address < 4294967296 →
      c.GetBytes = c.command :: c.data.length % 256 :: c.data.length / 256 ::
        c.unlockSequence.1 :: c.unlockSequence.2 ::
        c.address % 256 :: c.address / 256 % 256 :: c.address / 65536 % 256 ::
        c.address / 16777216 :: c.data) ∧
    (∀ c : Command, c.data = [] → c.length < 65536 → c.address < 4294967296 →
      c.GetBytes = [c.command, c.length % 256, c.length / 256,
        c.unlockSequence.1, c.unlockSequence.2,
        c.address % 256, c.address / 256 % 256, c.address / 65536 % 256,
        c.address / 16777216]) ∧
    (∀ a d, (NewWriteFlashCommand a d).unlockSequence = (0x55, 0xAA)) ∧
    (∀ a n, (NewEraseFlashCommand a n).unlockSequence = (0x55, 0xAA)) ∧
    (∀ a d, (NewWriteEECommand a d).unlockSequence = (0x55, 0xAA)) ∧
    (∀ a d, (NewWriteConfigCommand a d).unlockSequence = (0x55, 0xAA)) ∧
    NewGetVersionCommand.unlockSequence = (0, 0) ∧
    (∀ a n, (NewReadFlashCommand a n).unlockSequence = (0, 0)) ∧
    (∀ a n, (NewReadEECommand a n).unlockSequence = (0, 0)) ∧
    (∀ a n, (NewReadConfigCommand a n).unlockSequence = (0, 0)) ∧
    (∀ a n, (NewCalculateChecksumCommand a n).unlockSequence = (0, 0)) ∧
    NewResetCommand.unlockSequence = (0, 0) := by
  refine ⟨?_, ?_, fun a d => rfl, fun a n => rfl, fun a d => rfl, fun a d => rfl,
    rfl, fun a n => rfl, fun a n => rfl, fun a n => rfl, fun a n => rfl, rfl⟩
  · intro c hne hlen haddr
    have hpos : 0 < c.data.length := List.length_pos.mpr hne
    simp only [Command.GetBytes, leBytes, if_pos hpos]
    have h1 : c.data.length / 256 % 256 = c.data.length / 256 :=
      Nat.mod_eq_of_lt (by omega)
    have h2 : c.address / 256 / 256 = c.address / 65536 := by
      rw [Nat.div_div_eq_div_mul]
    have h3 : c.address / 256 / 256 / 256 = c.address / 16777216 := by
      rw [Nat.div_div_eq_div_mul, Nat.div_div_eq_div_mul]
    have h4 : c.address / 16777216 % 256 = c.address / 16777216 :=
      Nat.mod_eq_of_lt (by omega)
    simp [h1, h2, h3, h4]
    omega
  · intro c hdat hlen haddr
    have hpos : ¬ 0 < c.data.length := by simp [hdat]
    simp only [Command.GetBytes, leBytes, if_neg hpos, hdat]
    have h1 : c.length / 256 % 256 = c.length / 256 :=
      Nat.mod_eq_of_lt (by omega)
    have h2 : c.address / 256 / 256 = c.address / 65536 := by
      rw [Nat.div_div_eq_div_mul]
    have h3 : c.address / 256 / 256 / 256 = c.address / 16777216 := by
      rw [Nat.div_div_eq_div_mul, Nat.div_div_eq_div_mul]
    have h4 : c.address / 16777216 % 256 = c.address / 16777216 :=
      Nat.mod_eq_of_lt (by omega)
    simp [h1, h2, h3, h4]
    omega


/-- Concrete instance of claim C1: framing a WriteFlash of `[0xDE, 0xAD]`
at address `0x800`. -/
theorem claim_C1_witness :
    Command.GetBytes
      { command := 0x02, unlockSequence := (0x55, 0xAA), address := 0x800
        length := 0, data := [0xDE, 0xAD], responseLength := 0
        expectsSuccessCode := true } =
      [0x02, 0x02, 0x00, 0x55, 0xAA, 0x00, 0x08, 0x00, 0x00, 0xDE, 0xAD] := by
  have h := claim_C1.1
    { command := 0x02, unlockSequence := (0x55, 0xAA), address := 0x800
      length := 0, data := [0xDE, 0xAD], responseLength := 0
      expectsSuccessCode := true }
    (by decide) (by decide) (by decide)
  simpa using h


theorem length_leBytes (n v : Nat) : (leBytes n v).length = n := by
  induction n generalizing v with
  | zero => rfl
  | succ n ih => simp [leBytes, ih]


theorem length_GetBytes (c : Command) : c.GetBytes.length = 9 + c.data.length := by
  simp [Command.GetBytes, length_leBytes]
  omega


/-- The echo length computed by `send` is always 10 — the start byte plus
the 9 header bytes — never including any payload byte. -/
theorem echoLen_eq (c : Command) :
    (0x55 :: c.GetBytes).length - c.data.length = 10 := by
  simp [length_GetBytes]
  omega


theorem getD_take (l : List Nat) (n m : Nat) (h : m < n) :
    (l.take n).getD m 0 = l.getD m 0 := by
  simp [List.getD_eq_getElem?_getD, List.getElem?_take_of_lt h]


theorem echoScan_eq_none_iff (tx echo : List Nat) (i fuel : Nat) :
    echoScan tx echo i fuel = none ↔
      ∀ j, i ≤ j → j < i + fuel → ¬ MismatchAt tx echo j := by
  induction fuel generalizing i with
  | zero => simp [echoScan]; omega
  | succ fuel ih =>
    by_cases h : MismatchAt tx echo i
    · have : i ≠ 4 ∧ i ≠ 5 ∧ tx.getD i 0 ≠ echo.getD i 0 := h
      simp only [echoScan, if_pos this]
      constructor
      · intro hc; exact absurd hc (by simp)
      · intro hall; exact absurd h (hall i le_rfl (by omega))
    · have : ¬ (i ≠ 4 ∧ i ≠ 5 ∧ tx.getD i 0 ≠ echo.getD i 0) := h
      simp only [echoScan, if_neg this, ih]
      constructor
      · intro hall j hij hj
        rcases Nat.eq_or_lt_of_le hij with rfl | hlt
        · exact h
        · exact hall j hlt (by omega)
      · intro hall j hij hj
        exact hall j (by omega) (by omega)


theorem echoScan_eq_some (tx echo : List Nat) (i fuel j : Nat)
    (hij : i ≤ j) (hj : j < i + fuel) (hm : MismatchAt tx echo j)
    (hmin : ∀ m, i ≤ m → m < j → ¬ MismatchAt tx echo m) :
    echoScan tx echo i fuel = some j := by
  induction fuel generalizing i with
  | zero => omega
  | succ fuel ih =>
    by_cases h : i = j
    · subst h
      have hcond : i ≠ 4 ∧ i ≠ 5 ∧ tx.getD i 0 ≠ echo.getD i 0 := hm
      unfold echoScan
      rw [if_pos hcond]
    · have hne : ¬ (i ≠ 4 ∧ i ≠ 5 ∧ tx.getD i 0 ≠ echo.getD i 0) :=
        hmin i le_rfl (by omega)
      unfold echoScan
      rw [if_neg hne]
      exact ih (i + 1) (by omega) (by omega) (fun m hm1 hm2 => hmin m (by omega) hm2)


/-- `send` with too few echo bytes available: I/O failure. -/
theorem send_short (cmd : Command) (input : List Nat) (h : input.length < 10) :
    send cmd input = .error .ioError := by
  simp only [send, echoLen_eq]
  have hn : ¬ (10 ≤ input.length) := by omega
  simp [recvExact, hn]


/-- `send` when the first 10 input bytes echo the transmitted frame
correctly outside offsets 4 and 5: the echo is accepted, exactly 10 bytes
are consumed, and the exchange continues on the rest of the input. -/
theorem send_echo_ok (cmd : Command) (input : List Nat) (h : 10 ≤ input.length)
    (hok : ∀ j, j < 10 → ¬ MismatchAt (0x55 :: cmd.GetBytes) input j) :
    send cmd input = afterEcho cmd (input.drop 10) := by
  simp only [send, echoLen_eq]
  simp only [recvExact, if_pos h]
  have hscan : echoScan (0x55 :: cmd.GetBytes) (input.take 10) 0 10 = none := by
    rw [echoScan_eq_none_iff]
    intro j _ hj hm
    refine hok j (by omega) ⟨hm.1, hm.2.1, ?_⟩
    have := hm.2.2
    rwa [getD_take input 10 j (by omega)] at this
  rw [hscan]


/-- `send` when the first fatal echo divergence is at offset `j`: the
exchange fails with an echo mismatch at `j`. -/
theorem send_echo_bad (cmd : Command) (input : List Nat) (j : Nat)
    (h : 10 ≤ input.length) (hj : j < 10)
    (hm : MismatchAt (0x55 :: cmd.GetBytes) input j)
    (hmin : ∀ m, m < j → ¬ MismatchAt (0x55 :: cmd.GetBytes) input m) :
    send cmd input = .error (.echoMismatch j) := by
  simp only [send, echoLen_eq]
  simp only [recvExact, if_pos h]
  have hscan : echoScan (0x55 :: cmd.GetBytes) (input.take 10) 0 10 = some j := by
    refine echoScan_eq_some _ _ 0 10 j (by omega) (by omega)
      ⟨hm.1, hm.2.1, ?_⟩ ?_
    · rw [getD_take input 10 j (by omega)]; exact hm.2.2
    · intro m _ hmj hc
      refine hmin m hmj ⟨hc.1, hc.2.1, ?_⟩
      have := hc.2.2
      rwa [getD_take input 10 m (by omega)] at this
  rw [hscan]


/-- Claim C2: the codec reads back exactly the 10 non-payload framed bytes
(the `0x55` start byte plus the 9 header bytes, never a payload byte) as
echo; an echo differing from the sent bytes only at offsets 4 and/or 5 is
accepted, and an echo differing at any other offset fails the exchange
with an echo-mismatch error carrying the first such offset. -/
theorem claim_C2 :
    (∀ cmd : Command, (0x55 :: cmd.GetBytes).length - cmd.data.length = 10) ∧
    (∀ (cmd : Command) (input : List Nat), input.length < 10 →
      send cmd input = .error .ioError) ∧
    (∀ (cmd : Command) (input : List Nat), 10 ≤ input.length →
      ((∀ j, j < 10 → ¬ MismatchAt (0x55 :: cmd.GetBytes) input j) →
        send cmd input = afterEcho cmd (input.drop 10)) ∧
      (∀ j, j < 10 → MismatchAt (0x55 :: cmd.GetBytes) input j →
        (∀ m, m < j → ¬ MismatchAt (0x55 :: cmd.GetBytes) input m) →
        send cmd input = .error (.echoMismatch j))) := by
  refine ⟨echoLen_eq, send_short, fun cmd input h => ⟨?_, ?_⟩⟩
  · exact send_echo_ok cmd input h
  · exact fun j hj hm hmin => send_echo_bad cmd input j h hj hm hmin


/-- Concrete instance of claim C2, following the captured exchange of the
spec: a WriteFlash of `[0xDE, 0xAD]` at `0x800` whose echo differs from
the sent frame exactly at the unlock offsets 4 and 5 is accepted. -/
theorem claim_C2_witness :
    send (NewWriteFlashCommand 0x800 [0xDE, 0xAD])
      [0x55, 0x02, 0x02, 0x00, 0x00, 0x00, 0x00, 0x08, 0x00, 0x00, 0x01] =
      .ok ([], []) := by
  have h := (claim_C2.2.2 (NewWriteFlashCommand 0x800 [0xDE, 0xAD])
    [0x55, 0x02, 0x02, 0x00, 0x00, 0x00, 0x00, 0x08, 0x00, 0x00, 0x01]
    (by decide)).1 (by decide)
  rw [h]
  rfl


/-- Counterexample to claim C8: when the device echoes nothing back
(empty input stream), the read of the echo — which happens after the
command bytes have been transmitted — fails, and `Reset` returns that
I/O failure as an error rather than swallowing it. -/
theorem claim_C8_counterexample :
    serialReset [] = some SendError.ioError ∧ serialReset [] ≠ none := by
  decide


/-- Claim C8 (amended): `Reset` sends the Reset command and awaits no
success byte and no response payload — after a correct 10-byte echo it
consumes nothing further and succeeds — but it does await the echo, and
an I/O failure while reading it, occurring after the command bytes have
been transmitted, is returned by `Reset` as an error. -/
theorem claim_C8 :
    (∀ input : List Nat, input.length < 10 →
      serialReset input = some SendError.ioError) ∧
    (∀ input : List Nat, 10 ≤ input.length →
      (∀ j, j < 10 → ¬ MismatchAt (0x55 :: NewResetCommand.GetBytes) input j) →
      send NewResetCommand input = .ok ([], input.drop 10) ∧
        serialReset input = none) := by
  constructor
  · intro input h
    unfold serialReset
    rw [send_short NewResetCommand input h]
  · intro input h hok
    have hsend := send_echo_ok NewResetCommand input h hok
    have hafter : afterEcho NewResetCommand (input.drop 10) =
        .ok ([], input.drop 10) := by
      simp [afterEcho, readResponse, NewResetCommand]
    rw [hafter] at hsend
    refine ⟨hsend, ?_⟩
    unfold serialReset
    rw [hsend]


/-- Concrete instance of the amended claim C8: with a correct echo and
nothing else on the line, `Reset` succeeds without reading any further
byte. -/
theorem claim_C8_witness :
    send NewResetCommand [0x55, 0x09, 0x00, 0x00, 0x00, 0x00, 0x00, 0x00,
      0x00, 0x00] = .ok ([], []) ∧
    serialReset [0x55, 0x09, 0x00, 0x00, 0x00, 0x00, 0x00, 0x00, 0x00, 0x00] =
      none := by
  have h := claim_C8.2
    [0x55, 0x09, 0x00, 0x00, 0x00, 0x00, 0x00, 0x00, 0x00, 0x00]
    (by decide) (by decide)
  simpa using h


theorem validSegment_eq_specFits (s : DataSegment) (start len : Nat)
    (hend : start + len < 4294967296) (hs : SegBounds s) :
    validSegment s start len = specFits s start (start + len) := by
  obtain ⟨h1, h2⟩ := hs
  unfold validSegment specFits
  have e1 : start % 4294967296 = start := Nat.mod_eq_of_lt (by omega)
  have e2 : s.address % 4294967296 = s.address := Nat.mod_eq_of_lt h1
  have e3 : (s.address + s.data.length) % 4294967296 = s.address + s.data.length :=
    Nat.mod_eq_of_lt h2
  have e4 : (start + len) % 4294967296 = start + len := Nat.mod_eq_of_lt hend
  rw [e1, e2, e3, e4]


theorem validSegment_flash_eq (s : DataSegment) (p : PIC8Profile)
    (hp : ProfileBounds p) (hs : SegBounds s) :
    validSegment s p.bootloaderOffset (sub32 p.flashSize p.bootloaderOffset) =
      specFits s p.bootloaderOffset p.flashSize := by
  obtain ⟨hb, hf, _, _, _⟩ := hp
  obtain ⟨h1, h2⟩ := hs
  unfold validSegment specFits sub32
  have e1 : p.bootloaderOffset % 4294967296 = p.bootloaderOffset :=
    Nat.mod_eq_of_lt hb
  have e2 : s.address % 4294967296 = s.address := Nat.mod_eq_of_lt h1
  have e3 : (s.address + s.data.length) % 4294967296 = s.address + s.data.length :=
    Nat.mod_eq_of_lt h2
  have e4 : (p.bootloaderOffset +
      (p.flashSize % 4294967296 + (4294967296 - p.bootloaderOffset)) %
        4294967296) % 4294967296 = p.flashSize := by
    omega
  rw [e1, e2, e3, e4]


/-- Under `uint32` representability, the code's classifier agrees with
the spec's region intervals. -/
theorem classifySegment_eq_specRegion (p : PIC8Profile) (s : DataSegment)
    (hp : ProfileBounds p) (hs : SegBounds s) :
    classifySegment p s = specRegion p s := by
  obtain ⟨hb, hf, hid, hcfg, hee⟩ := hp
  unfold classifySegment specRegion
  rw [validSegment_flash_eq s p ⟨hb, hf, hid, hcfg, hee⟩ hs,
    validSegment_eq_specFits s p.idOffset p.idSize hid hs,
    validSegment_eq_specFits s p.configOffset p.configSize hcfg hs,
    validSegment_eq_specFits s p.eepromOffset p.eepromSize hee hs]


/-- Successful classification: the final state is the initial one with
each region's sequence extended, in input order, by the segments the
classifier sends there (flash padded, config rewritten). -/
theorem loadSegments_success (p : PIC8Profile) (st : Pic8State)
    (segs : List DataSegment) (h : (loadSegments p st segs).2 = none) :
    (loadSegments p st segs).1 =
      { memory := st.memory
        flash := st.flash ++
          ((segs.filter fun s => classifySegment p s == some .flash).map
            fun s => ⟨s.address, padFlash s.data⟩)
        config := st.config ++
          ((segs.filter fun s => classifySegment p s == some .config).map
            fun s => ⟨s.address, fixConfig s.data⟩)
        eeprom := st.eeprom ++
          (segs.filter fun s => classifySegment p s == some .eeprom)
        id := st.id ++ (segs.filter fun s => classifySegment p s == some .id) } := by
  induction segs generalizing st with
  | nil => simp [loadSegments]
  | cons s rest ih =>
    match hc : classifySegment p s with
    | some .flash =>
      have h' : (loadSegments p
          { st with flash := st.flash ++ [⟨s.address, padFlash s.data⟩] } rest).2 =
          none := by
        rw [show loadSegments p
            { st with flash := st.flash ++ [⟨s.address, padFlash s.data⟩] } rest =
            loadSegments p st (s :: rest) by simp [loadSegments, hc]]
        exact h
      rw [show loadSegments p st (s :: rest) =
        loadSegments p
          { st with flash := st.flash ++ [⟨s.address, padFlash s.data⟩] } rest by
        simp [loadSegments, hc]]
      rw [ih _ h']
      simp [List.filter_cons, hc]
    | some .id =>
      have h' : (loadSegments p { st with id := st.id ++ [s] } rest).2 = none := by
        rw [show loadSegments p { st with id := st.id ++ [s] } rest =
            loadSegments p st (s :: rest) by simp [loadSegments, hc]]
        exact h
      rw [show loadSegments p st (s :: rest) =
        loadSegments p { st with id := st.id ++ [s] } rest by
        simp [loadSegments, hc]]
      rw [ih _ h']
      simp [List.filter_cons, hc]
    | some .config =>
      have h' : (loadSegments p
          { st with config := st.config ++ [⟨s.address, fixConfig s.data⟩] } rest).2 =
          none := by
        rw [show loadSegments p
            { st with config := st.config ++ [⟨s.address, fixConfig s.data⟩] } rest =
            loadSegments p st (s :: rest) by simp [loadSegments, hc]]
        exact h
      rw [show loadSegments p st (s :: rest) =
        loadSegments p
          { st with config := st.config ++ [⟨s.address, fixConfig s.data⟩] } rest by
        simp [loadSegments, hc]]
      rw [ih _ h']
      simp [List.filter_cons, hc]
    | some .eeprom =>
      have h' : (loadSegments p { st with eeprom := st.eeprom ++ [s] } rest).2 =
          none := by
        rw [show loadSegments p { st with eeprom := st.eeprom ++ [s] } rest =
            loadSegments p st (s :: rest) by simp [loadSegments, hc]]
        exact h
      rw [show loadSegments p st (s :: rest) =
        loadSegments p { st with eeprom := st.eeprom ++ [s] } rest by
        simp [loadSegments, hc]]
      rw [ih _ h']
      simp [List.filter_cons, hc]
    | none =>
      exfalso
      have : (loadSegments p st (s :: rest)).2 = some s.address := by
        simp [loadSegments, hc]
      rw [this] at h
      exact Option.some_ne_none _ h


/-- When every segment classifies, the loop reports no error. -/
theorem loadSegments_all_classified (p : PIC8Profile) (st : Pic8State)
    (segs : List DataSegment) (h : ∀ t ∈ segs, classifySegment p t ≠ none) :
    (loadSegments p st segs).2 = none := by
  induction segs generalizing st with
  | nil => rfl
  | cons s rest ih =>
    have hs : classifySegment p s ≠ none := h s (by simp)
    have hrest : ∀ t ∈ rest, classifySegment p t ≠ none :=
      fun t ht => h t (by simp [ht])
    match hc : classifySegment p s with
    | some .flash => simp only [loadSegments, hc]; exact ih _ hrest
    | some .id => simp only [loadSegments, hc]; exact ih _ hrest
    | some .config => simp only [loadSegments, hc]; exact ih _ hrest
    | some .eeprom => simp only [loadSegments, hc]; exact ih _ hrest
    | none => exact absurd hc hs


/-- The loop processes a concatenation left to right. -/
theorem loadSegments_append (p : PIC8Profile) (st : Pic8State)
    (l1 l2 : List DataSegment) (h : (loadSegments p st l1).2 = none) :
    loadSegments p st (l1 ++ l2) = loadSegments p (loadSegments p st l1).1 l2 := by
  induction l1 generalizing st with
  | nil => rfl
  | cons s rest ih =>
    match hc : classifySegment p s with
    | some .flash =>
      simp only [List.cons_append, loadSegments, hc]
      simp only [loadSegments, hc] at h
      exact ih _ h
    | some .id =>
      simp only [List.cons_append, loadSegments, hc]
      simp only [loadSegments, hc] at h
      exact ih _ h
    | some .config =>
      simp only [List.cons_append, loadSegments, hc]
      simp only [loadSegments, hc] at h
      exact ih _ h
    | some .eeprom =>
      simp only [List.cons_append, loadSegments, hc]
      simp only [loadSegments, hc] at h
      exact ih _ h
    | none =>
      exfalso
      simp only [loadSegments, hc] at h
      exact Option.some_ne_none _ h


/-- A failing run decomposes the input as classified segments, then the
offending segment whose address is reported. -/
theorem loadSegments_failure (p : PIC8Profile) (st st2 : Pic8State)
    (segs : List DataSegment) (a : Nat)
    (h : loadSegments p st segs = (st2, some a)) :
    ∃ l1 s l2, segs = l1 ++ s :: l2 ∧ classifySegment p s = none ∧
      (∀ t ∈ l1, classifySegment p t ≠ none) ∧ a = s.address ∧
      (loadSegments p st l1).2 = none ∧ st2 = (loadSegments p st l1).1 := by
  induction segs generalizing st with
  | nil => exact absurd (congrArg Prod.snd h) (by simp [loadSegments])
  | cons s rest ih =>
    match hc : classifySegment p s with
    | some .flash =>
      simp only [loadSegments, hc] at h
      obtain ⟨l1, t, l2, hsplit, hnone, hall, ha, h2, h1⟩ := ih _ h
      refine ⟨s :: l1, t, l2, by simp [hsplit], hnone, ?_, ha, ?_, ?_⟩
      · intro u hu
        rcases List.mem_cons.mp hu with rfl | hu
        · simp [hc]
        · exact hall u hu
      · simpa [loadSegments, hc] using h2
      · simpa [loadSegments, hc] using h1
    | some .id =>
      simp only [loadSegments, hc] at h
      obtain ⟨l1, t, l2, hsplit, hnone, hall, ha, h2, h1⟩ := ih _ h
      refine ⟨s :: l1, t, l2, by simp [hsplit], hnone, ?_, ha, ?_, ?_⟩
      · intro u hu
        rcases List.mem_cons.mp hu with rfl | hu
        · simp [hc]
        · exact hall u hu
      · simpa [loadSegments, hc] using h2
      · simpa [loadSegments, hc] using h1
    | some .config =>
      simp only [loadSegments, hc] at h
      obtain ⟨l1, t, l2, hsplit, hnone, hall, ha, h2, h1⟩ := ih _ h
      refine ⟨s :: l1, t, l2, by simp [hsplit], hnone, ?_, ha, ?_, ?_⟩
      · intro u hu
        rcases List.mem_cons.mp hu with rfl | hu
        · simp [hc]
        · exact hall u hu
      · simpa [loadSegments, hc] using h2
      · simpa [loadSegments, hc] using h1
    | some .eeprom =>
      simp only [loadSegments, hc] at h
      obtain ⟨l1, t, l2, hsplit, hnone, hall, ha, h2, h1⟩ := ih _ h
      refine ⟨s :: l1, t, l2, by simp [hsplit], hnone, ?_, ha, ?_, ?_⟩
      · intro u hu
        rcases List.mem_cons.mp hu with rfl | hu
        · simp [hc]
        · exact hall u hu
      · simpa [loadSegments, hc] using h2
      · simpa [loadSegments, hc] using h1
    | none =>
      simp only [loadSegments, hc, Prod.mk.injEq, Option.some.injEq] at h
      exact ⟨[], s, rest, rfl, hc, by simp, h.2.symm, rfl, h.1.symm⟩


/-- Classified segments split exactly across the four region filters. -/
theorem classified_filter_lengths (p : PIC8Profile) (segs : List DataSegment)
    (h : ∀ t ∈ segs, classifySegment p t ≠ none) :
    (segs.filter fun s => classifySegment p s == some Region.flash).length +
      (segs.filter fun s => classifySegment p s == some Region.id).length +
      (segs.filter fun s => classifySegment p s == some Region.config).length +
      (segs.filter fun s => classifySegment p s == some Region.eeprom).length =
      segs.length := by
  induction segs with
  | nil => rfl
  | cons s rest ih =>
    have hrest : ∀ t ∈ rest, classifySegment p t ≠ none :=
      fun t ht => h t (by simp [ht])
    have := ih hrest
    match hc : classifySegment p s with
    | some .flash => simp [List.filter_cons, hc]; omega
    | some .id => simp [List.filter_cons, hc]; omega
    | some .config => simp [List.filter_cons, hc]; omega
    | some .eeprom => simp [List.filter_cons, hc]; omega
    | none => exact absurd hc (h s (by simp))


/-- Claim C3: `LoadHex` classifies each parsed segment by trying, in
order, flash `[bootloader_offset, flash_size)`, ID, config, EEPROM, with
the fit predicate `start ≤ addr ∧ addr + len(data) ≤ start + length`;
the segment is appended to the first matching region's sequence, and a
segment matching none of the four makes the load fail with that
segment's address. -/
theorem claim_C3 :
    (∀ (p : PIC8Profile) (s : DataSegment), ProfileBounds p → SegBounds s →
      classifySegment p s = specRegion p s) ∧
    (∀ (p : PIC8Profile) (st : Pic8State) (segs : List DataSegment),
      (LoadHex p st segs).2 = none →
      (LoadHex p st segs).1.flash = st.flash ++
        ((segs.filter fun s => classifySegment p s == some Region.flash).map
          fun s => ⟨s.address, padFlash s.data⟩) ∧
      (LoadHex p st segs).1.id = st.id ++
        (segs.filter fun s => classifySegment p s == some Region.id) ∧
      (LoadHex p st segs).1.config = st.config ++
        ((segs.filter fun s => classifySegment p s == some Region.config).map
          fun s => ⟨s.address, fixConfig s.data⟩) ∧
      (LoadHex p st segs).1.eeprom = st.eeprom ++
        (segs.filter fun s => classifySegment p s == some Region.eeprom)) ∧
    (∀ (p : PIC8Profile) (st st2 : Pic8State) (segs : List DataSegment) (a : Nat),
      LoadHex p st segs = (st2, some a) →
      ∃ l1 s l2, segs = l1 ++ s :: l2 ∧ classifySegment p s = none ∧
        (∀ t ∈ l1, classifySegment p t ≠ none) ∧ a = s.address) := by
  refine ⟨classifySegment_eq_specRegion, ?_, ?_⟩
  · intro p st segs h
    unfold LoadHex at h ⊢
    rw [loadSegments_success p _ segs h]
    exact ⟨rfl, rfl, rfl, rfl⟩
  · intro p st st2 segs a h
    unfold LoadHex at h
    obtain ⟨l1, s, l2, hsplit, hnone, hall, ha, _, _⟩ :=
      loadSegments_failure p _ st2 segs a h
    exact ⟨l1, s, l2, hsplit, hnone, hall, ha⟩


/-- Concrete instance of claim C3, on the PIC18F45K20 profile of the
repository README: the classifier agrees with the spec's intervals on a
flash segment, a config segment, and the spec's unclassifiable segment at
`0x400000`. -/
theorem claim_C3_witness :
    classifySegment
        { bootloaderOffset := 0x800, flashSize := 0x8000
          eepromOffset := 0xF00000, eepromSize := 256
          configOffset := 0x300000, configSize := 14
          idOffset := 0x200000, idSize := 8 }
        ⟨0x801, [0xAA]⟩ =
      specRegion
        { bootloaderOffset := 0x800, flashSize := 0x8000
          eepromOffset := 0xF00000, eepromSize := 256
          configOffset := 0x300000, configSize := 14
          idOffset := 0x200000, idSize := 8 }
        ⟨0x801, [0xAA]⟩ ∧
    classifySegment
        { bootloaderOffset := 0x800, flashSize := 0x8000
          eepromOffset := 0xF00000, eepromSize := 256
          configOffset := 0x300000, configSize := 14
          idOffset := 0x200000, idSize := 8 }
        ⟨0x400000, [0x00]⟩ =
      specRegion
        { bootloaderOffset := 0x800, flashSize := 0x8000
          eepromOffset := 0xF00000, eepromSize := 256
          configOffset := 0x300000, configSize := 14
          idOffset := 0x200000, idSize := 8 }
        ⟨0x400000, [0x00]⟩ := by
  constructor
  · exact claim_C3.1 _ _ (by norm_num [ProfileBounds]) (by norm_num [SegBounds])
  · exact claim_C3.1 _ _ (by norm_num [ProfileBounds]) (by norm_num [SegBounds])


theorem padFlash_eq (d : List Nat) :
    padFlash d = if d.length % 2 = 1 then d ++ [0xFF] else d := by
  unfold padFlash
  by_cases hm : d.length % 2 = 1
  · simp [Nat.and_one_is_mod, hm]
  · simp [Nat.and_one_is_mod, hm]


theorem padFlash_cases (d : List Nat) :
    (d.length % 2 = 0 ∧ padFlash d = d) ∨
      (d.length % 2 = 1 ∧ padFlash d = d ++ [0xFF]) := by
  by_cases hm : d.length % 2 = 1
  · right
    simp [padFlash_eq, hm]
  · left
    refine ⟨by omega, ?_⟩
    simp [padFlash_eq, hm]


theorem padFlash_even (d : List Nat) : (padFlash d).length % 2 = 0 := by
  rcases padFlash_cases d with ⟨h0, he⟩ | ⟨h1, he⟩
  · rw [he]; exact h0
  · rw [he]; simp; omega


theorem not_mem_fixConfig (d : List Nat) : (0xFF : Nat) ∉ fixConfig d := by
  intro h
  obtain ⟨b, hb, he⟩ := List.mem_map.mp h
  by_cases hb255 : b = 255
  · subst hb255
    simp at he
  · simp [hb255] at he


/-- Claim C4: after a successful `LoadHex` from a fresh programmer, every
stored flash segment has even length (odd input data got exactly one
`0xFF` appended), no stored config segment contains `0xFF`, and ID and
EEPROM segments are stored byte-for-byte as they came in. -/
theorem claim_C4 (p : PIC8Profile) (segs : List DataSegment) (st2 : Pic8State)
    (h : LoadHex p initialState segs = (st2, none)) :
    (∀ s ∈ st2.flash, s.data.length % 2 = 0 ∧
      ∃ s0 ∈ segs, s.address = s0.address ∧
        ((s0.data.length % 2 = 0 ∧ s.data = s0.data) ∨
          (s0.data.length % 2 = 1 ∧ s.data = s0.data ++ [0xFF]))) ∧
    (∀ s ∈ st2.config, (0xFF : Nat) ∉ s.data) ∧
    (∀ s ∈ st2.id, s ∈ segs) ∧
    (∀ s ∈ st2.eeprom, s ∈ segs) := by
  have h' : loadSegments p { initialState with memory := some segs } segs =
      (st2, none) := h
  have hn : (loadSegments p { initialState with memory := some segs } segs).2 =
      none := by rw [h']
  have he := loadSegments_success p { initialState with memory := some segs } segs hn
  rw [h'] at he
  have hst : st2 = _ := he
  refine ⟨?_, ?_, ?_, ?_⟩
  · intro s hs
    rw [hst] at hs
    simp only [initialState, List.nil_append] at hs
    obtain ⟨s0, h0, rfl⟩ := List.mem_map.mp hs
    exact ⟨padFlash_even s0.data, s0, (List.mem_filter.mp h0).1, rfl,
      padFlash_cases s0.data⟩
  · intro s hs
    rw [hst] at hs
    simp only [initialState, List.nil_append] at hs
    obtain ⟨s0, h0, rfl⟩ := List.mem_map.mp hs
    exact not_mem_fixConfig s0.data
  · intro s hs
    rw [hst] at hs
    simp only [initialState, List.nil_append] at hs
    exact (List.mem_filter.mp hs).1
  · intro s hs
    rw [hst] at hs
    simp only [initialState, List.nil_append] at hs
    exact (List.mem_filter.mp hs).1


/-- Concrete instance of claim C4: loading a 1-byte flash segment (padded
to `[0xAA, 0xFF]`) and a config segment `[0xFF, 0x01]` (stored as
`[0x00, 0x01]`). -/
theorem claim_C4_witness :
    (∀ s ∈ ([⟨0x801, [0xAA, 0xFF]⟩] : List DataSegment),
      s.data.length % 2 = 0 ∧
      ∃ s0 ∈ ([⟨0x801, [0xAA]⟩, ⟨0x300000, [0xFF, 0x01]⟩] : List DataSegment),
        s.address = s0.address ∧
        ((s0.data.length % 2 = 0 ∧ s.data = s0.data) ∨
          (s0.data.length % 2 = 1 ∧ s.data = s0.data ++ [0xFF]))) ∧
    (∀ s ∈ ([⟨0x300000, [0x00, 0x01]⟩] : List DataSegment),
      (0xFF : Nat) ∉ s.data) := by
  have h := claim_C4
    { bootloaderOffset := 0x800, flashSize := 0x8000
      eepromOffset := 0xF00000, eepromSize := 256
      configOffset := 0x300000, configSize := 14
      idOffset := 0x200000, idSize := 8 }
    [⟨0x801, [0xAA]⟩, ⟨0x300000, [0xFF, 0x01]⟩]
    { memory := some [⟨0x801, [0xAA]⟩, ⟨0x300000, [0xFF, 0x01]⟩]
      flash := [⟨0x801, [0xAA, 0xFF]⟩], config := [⟨0x300000, [0x00, 0x01]⟩]
      eeprom := [], id := [] }
    (by decide)
  exact ⟨h.1, h.2.1⟩


/-- Claim C10: `LoadHex` is not atomic on failure.  When a segment fails
classification, the load stops with that segment's address, but the
segments classified before it remain appended to the region sequences and
the parsed memory stays cached, so the programmer's state differs from
its state before the call. -/
theorem claim_C10 (p : PIC8Profile) (l1 l2 : List DataSegment) (s : DataSegment)
    (hbad : classifySegment p s = none)
    (hgood : ∀ t ∈ l1, classifySegment p t ≠ none) :
    ∃ st2, LoadHex p initialState (l1 ++ s :: l2) = (st2, some s.address) ∧
      st2.memory = some (l1 ++ s :: l2) ∧
      st2.flash.length + st2.id.length + st2.config.length +
        st2.eeprom.length = l1.length ∧
      st2 ≠ initialState := by
  have hl1 : (loadSegments p
      { initialState with memory := some (l1 ++ s :: l2) } l1).2 = none :=
    loadSegments_all_classified p _ l1 hgood
  have happ := loadSegments_append p
    { initialState with memory := some (l1 ++ s :: l2) } l1 (s :: l2) hl1
  have hsucc := loadSegments_success p
    { initialState with memory := some (l1 ++ s :: l2) } l1 hl1
  refine ⟨(loadSegments p
    { initialState with memory := some (l1 ++ s :: l2) } l1).1, ?_, ?_, ?_, ?_⟩
  · show loadSegments p
      { initialState with memory := some (l1 ++ s :: l2) } (l1 ++ s :: l2) = _
    rw [happ]
    simp [loadSegments, hbad]
  · rw [hsucc]
  · rw [hsucc]
    simp only [initialState, List.nil_append, List.length_map]
    exact classified_filter_lengths p l1 hgood
  · rw [hsucc]
    intro hcontra
    have hmem := congrArg Pic8State.memory hcontra
    simp [initialState] at hmem


/-- Concrete instance of claim C10: a good flash segment followed by the
spec's unclassifiable segment at `0x400000` leaves the flash segment
loaded and the memory cached despite the error. -/
theorem claim_C10_witness :
    ∃ st2, LoadHex
        { bootloaderOffset := 0x800, flashSize := 0x8000
          eepromOffset := 0xF00000, eepromSize := 256
          configOffset := 0x300000, configSize := 14
          idOffset := 0x200000, idSize := 8 }
        initialState
        ([⟨0x801, [0xAA]⟩] ++ (⟨0x400000, [0x00]⟩ : DataSegment) :: []) =
        (st2, some 0x400000) ∧
      st2.memory = some ([⟨0x801, [0xAA]⟩] ++ (⟨0x400000, [0x00]⟩ : DataSegment) :: []) ∧
      st2.flash.length + st2.id.length + st2.config.length +
        st2.eeprom.length = 1 ∧
      st2 ≠ initialState := by
  have h := claim_C10
    { bootloaderOffset := 0x800, flashSize := 0x8000
      eepromOffset := 0xF00000, eepromSize := 256
      configOffset := 0x300000, configSize := 14
      idOffset := 0x200000, idSize := 8 }
    [⟨0x801, [0xAA]⟩] [] ⟨0x400000, [0x00]⟩ (by decide) (by decide)
  simpa using h


theorem land_two_pow_align (a k : Nat) (hk : k ≤ 32) (ha : a < 4294967296) :
    a &&& (4294967296 - 2 ^ k) = a - a % 2 ^ k := by
  have hpow : (2 : Nat) ^ k ≤ 2 ^ 32 := Nat.pow_le_pow_right (by norm_num) hk
  have key : a - a % 2 ^ k = (a >>> k) <<< k := by
    rw [Nat.shiftLeft_eq, Nat.shiftRight_eq_div_pow]
    have h := Nat.div_add_mod a (2 ^ k)
    calc a - a % 2 ^ k = 2 ^ k * (a / 2 ^ k) + a % 2 ^ k - a % 2 ^ k := by rw [h]
      _ = 2 ^ k * (a / 2 ^ k) := by simp
      _ = a / 2 ^ k * 2 ^ k := Nat.mul_comm _ _
  have hmask : (4294967296 : Nat) - 2 ^ k = (2 ^ (32 - k) - 1) <<< k := by
    rw [Nat.shiftLeft_eq, Nat.sub_mul, one_mul, ← pow_add]
    have hpk : 32 - k + k = 32 := by omega
    rw [hpk]
    norm_num
  rw [key, hmask]
  apply Nat.eq_of_testBit_eq
  intro i
  rw [Nat.testBit_land, Nat.testBit_shiftLeft, Nat.testBit_shiftLeft,
    Nat.testBit_shiftRight, Nat.testBit_two_pow_sub_one]
  by_cases hik : k ≤ i
  · have hki : k + (i - k) = i := by omega
    by_cases hi32 : i < 32
    · have hlt : i - k < 32 - k := by omega
      simp [hki, hik, hlt]
    · have hbit : a.testBit i = false :=
        Nat.testBit_lt_two_pow
          (lt_of_lt_of_le ha (by
            calc (4294967296 : Nat) = 2 ^ 32 := by norm_num
              _ ≤ 2 ^ i := Nat.pow_le_pow_right (by norm_num) (by omega)))
      have hlt : ¬ (i - k < 32 - k) := by omega
      simp [hki, hik, hlt, hbit]
  · simp [hik]


theorem alignDown32_eq (addr k : Nat) (hk : k ≤ 32) (ha : addr < 4294967296) :
    alignDown32 addr (2 ^ k) = addr - addr % 2 ^ k := by
  have hpow : (2 : Nat) ^ k ≤ 4294967296 := by
    calc (2 : Nat) ^ k ≤ 2 ^ 32 := Nat.pow_le_pow_right (by norm_num) hk
      _ = 4294967296 := by norm_num
  have hpos : 0 < (2 : Nat) ^ k := Nat.pos_pow_of_pos k (by norm_num)
  unfold alignDown32 notMask32
  have h1 : addr % 4294967296 = addr := Nat.mod_eq_of_lt ha
  have h2 : (2 ^ k - 1) % 4294967296 = 2 ^ k - 1 := Nat.mod_eq_of_lt (by omega)
  have h3 : 4294967295 - (2 ^ k - 1) = 4294967296 - 2 ^ k := by omega
  simp only [h1, h2, h3]
  exact land_two_pow_align addr k hk ha


theorem eraseNum_eq (s : DataSegment) (k : Nat) (hk : k ≤ 32)
    (hb : s.address + s.data.length < 4294967296)
    (hfit : ceilDiv (s.address + s.data.length - (s.address - s.address % 2 ^ k))
      (2 ^ k) < 65536) :
    eraseNum s (2 ^ k) =
      ceilDiv (s.address + s.data.length - (s.address - s.address % 2 ^ k))
        (2 ^ k) := by
  unfold eraseNum
  rw [alignDown32_eq s.address k hk (by omega)]
  have h1 : (s.address + s.data.length) % 4294967296 = s.address + s.data.length :=
    Nat.mod_eq_of_lt hb
  rw [h1]
  have h2 : (s.address + s.data.length +
      (4294967296 - (s.address - s.address % 2 ^ k))) % 4294967296 =
      s.address + s.data.length - (s.address - s.address % 2 ^ k) := by
    have hmle : s.address % 2 ^ k ≤ s.address := Nat.mod_le _ _
    omega
  rw [h2]
  exact Nat.mod_eq_of_lt hfit


/-- Claim C5: for every segment, `eraseSegments` issues exactly one
EraseFlash whose start is the segment address aligned down to the erase
row size E (`address AND NOT (E−1)`) and whose row count is
`⌈((address + len(data)) − start') / E⌉`; in particular a 3-byte segment
at `0x83F` with E = 64 yields `EraseFlash(0x800, 2)`. -/
theorem claim_C5 :
    (∀ (segs : List DataSegment) (k : Nat) (f : Nat → Nat → Option Unit),
      k ≤ 32 → (∀ a n, f a n = some ()) →
      (∀ s ∈ segs, s.address + s.data.length < 4294967296 ∧
        ceilDiv (s.address + s.data.length - (s.address - s.address % 2 ^ k))
          (2 ^ k) < 65536) →
      (eraseSegments (2 ^ k) f segs).1 = segs.map fun s =>
        (s.address - s.address % 2 ^ k,
          ceilDiv (s.address + s.data.length - (s.address - s.address % 2 ^ k))
            (2 ^ k))) ∧
    (eraseSegments 64 (fun _ _ => some ()) [⟨0x83F, [0x11, 0x22, 0x33]⟩]).1 =
      [(0x800, 2)] := by
  constructor
  · intro segs k f hk hf hb
    induction segs with
    | nil => rfl
    | cons s rest ih =>
      obtain ⟨hb1, hb2⟩ := hb s (by simp)
      have hrest : ∀ t ∈ rest, t.address + t.data.length < 4294967296 ∧
          ceilDiv (t.address + t.data.length - (t.address - t.address % 2 ^ k))
            (2 ^ k) < 65536 := fun t ht => hb t (by simp [ht])
      simp only [eraseSegments, hf, ih hrest, List.map_cons]
      rw [alignDown32_eq s.address k hk (by omega), eraseNum_eq s k hk hb1 hb2]
  · decide


/-- Concrete instance of claim C5: the spec's cross-row example, a 3-byte
segment at `0x83F` with erase row size 64 = 2^6. -/
theorem claim_C5_witness :
    (eraseSegments (2 ^ 6) (fun _ _ => some ())
        [⟨0x83F, [0x11, 0x22, 0x33]⟩]).1 =
      ([⟨0x83F, [0x11, 0x22, 0x33]⟩] : List DataSegment).map (fun s =>
        (s.address - s.address % 2 ^ 6,
          ceilDiv (s.address + s.data.length - (s.address - s.address % 2 ^ 6))
            (2 ^ 6))) :=
  claim_C5.1 [⟨0x83F, [0x11, 0x22, 0x33]⟩] 6 (fun _ _ => some ())
    (by norm_num) (fun a n => rfl) (by decide)


theorem localChecksum_eq_wordSum :
    ∀ d : List Nat, d.length % 2 = 0 → localChecksum d = some (wordSum d)
  | [], _ => by simp [localChecksum, wordSum]
  | [b], h => by simp at h
  | b0 :: b1 :: rest, h => by
    have hrest : rest.length % 2 = 0 := by
      simp only [List.length_cons] at h
      omega
    have ih := localChecksum_eq_wordSum rest hrest
    simp only [localChecksum, ih, Option.map_some']
    congr 1
    have hlen : (b0 :: b1 :: rest).length / 2 = rest.length / 2 + 1 := by
      simp only [List.length_cons]
      omega
    have hterm : ∀ j, (b0 :: b1 :: rest).getD (2 * (j + 1)) 0 +
        (b0 :: b1 :: rest).getD (2 * (j + 1) + 1) 0 * 256 =
        rest.getD (2 * j) 0 + rest.getD (2 * j + 1) 0 * 256 := by
      intro j
      have e1 : 2 * (j + 1) = 2 * j + 1 + 1 := by ring
      rw [e1]
      simp [List.getD_cons_succ]
    unfold wordSum
    rw [hlen, Finset.sum_range_succ', Finset.sum_congr rfl fun j _ => hterm j]
    simp only [Nat.mul_zero, List.getD_cons_zero, Nat.zero_add,
      List.getD_cons_succ]
    omega


theorem take_chunk_even (d : List Nat) (h : d.length % 2 = 0) :
    (d.take 65534).length % 2 = 0 := by
  simp only [List.length_take]
  omega


theorem drop_chunk_even (d : List Nat) (h : d.length % 2 = 0) :
    (d.drop 65534).length % 2 = 0 := by
  simp only [List.length_drop]
  omega


theorem verifyChunks_isSome (f : Nat → Nat → Option Nat) (addr : Nat)
    (d : List Nat) (he : d.length % 2 = 0) :
    (verifyChunks f addr d).isSome := by
  by_cases h : d = []
  · subst h
    simp [verifyChunks]
  · rw [verifyChunks]
    simp only [dif_neg h]
    cases hf : f (addr % 4294967296) (d.take 65534).length with
    | none => simp
    | some picsum =>
      rw [localChecksum_eq_wordSum _ (take_chunk_even d he)]
      by_cases hps : picsum ≠ wordSum (d.take 65534)
      · simp [hps]
      · simp only [hps, if_neg, ite_not, if_pos]
        exact verifyChunks_isSome f (addr + 65534) (d.drop 65534)
          (drop_chunk_even d he)
termination_by d.length
decreasing_by
  simp only [List.length_drop]
  have hd : 0 < d.length := List.length_pos.mpr h
  omega


/-- Claim C9: with every segment of even data length — which `LoadHex`
guarantees for flash, the only region checksum verification is applied
to — every chunk is even (the cap 65534 is even), the local-checksum
loop's `chunk[i+1]` access stays in range, and the verification never
indexes out of bounds (result `isSome`, i.e. no modelled panic). -/
theorem claim_C9 :
    (∀ d : List Nat, d.length % 2 = 0 → (d.take 65534).length % 2 = 0 ∧
      (localChecksum d).isSome) ∧
    (∀ (f : Nat → Nat → Option Nat) (segs : List DataSegment),
      (∀ s ∈ segs, s.data.length % 2 = 0) →
      (verifySegmentsByChecksum f segs).isSome) := by
  constructor
  · intro d hd
    refine ⟨take_chunk_even d hd, ?_⟩
    rw [localChecksum_eq_wordSum d hd]
    rfl
  · intro f segs heven
    induction segs with
    | nil => simp [verifySegmentsByChecksum]
    | cons s rest ih =>
      have hs : s.data.length % 2 = 0 := heven s (by simp)
      have hrest : ∀ t ∈ rest, t.data.length % 2 = 0 :=
        fun t ht => heven t (by simp [ht])
      obtain ⟨r, hr⟩ := Option.isSome_iff_exists.mp
        (verifyChunks_isSome f s.address s.data hs)
      rw [verifySegmentsByChecksum, hr]
      match r with
      | .ok () => exact ih hrest
      | .error e => rfl


/-- Concrete instance of claim C9: an even-length flash segment is
verified without any out-of-range access even when the device oracle
fails. -/
theorem claim_C9_witness :
    (verifySegmentsByChecksum (fun _ _ => none)
      [⟨0x800, [0x01, 0x02]⟩]).isSome :=
  claim_C9.2 (fun _ _ => none) [⟨0x800, [0x01, 0x02]⟩] (by decide)


theorem chunkList_length_le (addr : Nat) (d : List Nat) :
    ∀ c ∈ chunkList addr d, c.2.length ≤ 65534 := by
  by_cases h : d = []
  · subst h
    simp [chunkList]
  · rw [chunkList]
    simp only [dif_neg h]
    intro c hc
    rcases List.mem_cons.mp hc with rfl | hc
    · simp only [List.length_take]
      omega
    · exact chunkList_length_le (addr + 65534) (d.drop 65534) c hc
termination_by d.length
decreasing_by
  simp only [List.length_drop]
  have hd : 0 < d.length := List.length_pos.mpr h
  omega


theorem verifyChunks_char (g : Nat → Nat → Nat) (addr : Nat) (d : List Nat)
    (he : d.length % 2 = 0) :
    verifyChunks (fun a n => some (g a n)) addr d =
      match (chunkList addr d).find?
          (fun c => !(g (c.1 % 4294967296) c.2.length == wordSum c.2)) with
      | none => some (.ok ())
      | some c => some (.error (.mismatch (c.1 % 4294967296)
          (g (c.1 % 4294967296) c.2.length) (wordSum c.2))) := by
  by_cases h : d = []
  · subst h
    simp [verifyChunks, chunkList]
  · rw [verifyChunks, chunkList]
    simp only [dif_neg h]
    rw [localChecksum_eq_wordSum _ (take_chunk_even d he)]
    dsimp only
    by_cases hbad : g (addr % 4294967296) (d.take 65534).length =
        wordSum (d.take 65534)
    · have hfind : ∀ l : List (Nat × List Nat),
          ((addr, d.take 65534) :: l).find?
            (fun c => !(g (c.1 % 4294967296) c.2.length == wordSum c.2)) =
          l.find? (fun c => !(g (c.1 % 4294967296) c.2.length == wordSum c.2)) := by
        intro l
        apply List.find?_cons_of_neg
        show ¬ ((!(g (addr % 4294967296) (d.take 65534).length ==
          wordSum (d.take 65534))) = true)
        rw [hbad]
        simp
      rw [hfind, if_neg (fun hne => hne hbad)]
      exact verifyChunks_char g (addr + 65534) (d.drop 65534)
        (drop_chunk_even d he)
    · have hfind :
          ((addr, d.take 65534) :: chunkList (addr + 65534) (d.drop 65534)).find?
            (fun c => !(g (c.1 % 4294967296) c.2.length == wordSum c.2)) =
          some (addr, d.take 65534) := by
        apply List.find?_cons_of_pos
        show (!(g (addr % 4294967296) (d.take 65534).length ==
          wordSum (d.take 65534))) = true
        simp only [Bool.not_eq_eq_eq_not, Bool.not_true, beq_eq_false_iff_ne,
          ne_eq]
        exact hbad
      rw [hfind, if_pos hbad]
termination_by d.length
decreasing_by
  simp only [List.length_drop]
  have hd : 0 < d.length := List.length_pos.mpr h
  omega


theorem verifySegments_char (g : Nat → Nat → Nat) (segs : List DataSegment)
    (heven : ∀ s ∈ segs, s.data.length % 2 = 0) :
    verifySegmentsByChecksum (fun a n => some (g a n)) segs =
      match (allChunks segs).find?
          (fun c => !(g (c.1 % 4294967296) c.2.length == wordSum c.2)) with
      | none => some (.ok ())
      | some c => some (.error (.mismatch (c.1 % 4294967296)
          (g (c.1 % 4294967296) c.2.length) (wordSum c.2))) := by
  induction segs with
  | nil => simp [verifySegmentsByChecksum, allChunks]
  | cons s rest ih =>
    have hs : s.data.length % 2 = 0 := heven s (by simp)
    have hrest : ∀ t ∈ rest, t.data.length % 2 = 0 :=
      fun t ht => heven t (by simp [ht])
    have hchunks : allChunks (s :: rest) =
        chunkList s.address s.data ++ allChunks rest := by
      simp [allChunks]
    rw [verifySegmentsByChecksum, verifyChunks_char g s.address s.data hs,
      hchunks, List.find?_append]
    cases hfind : (chunkList s.address s.data).find?
        (fun c => !(g (c.1 % 4294967296) c.2.length == wordSum c.2)) with
    | none => simpa using ih hrest
    | some c => simp


/-- Claim C7: checksum verification checks only flash; each flash
segment is split into consecutive chunks of at most 0xFFFE bytes; the
local checksum of a chunk is the sum modulo 2^16 of the little-endian
words `data[i] + (data[i+1] << 8)` over even `i`; and against a total
device oracle, verification succeeds when every chunk's device checksum
matches the local one and otherwise fails at the first differing chunk
with both values. -/
theorem claim_C7 :
    (∀ (st : Pic8State) (f : Nat → Nat → Option Nat),
      verifyByChecksum st f = verifySegmentsByChecksum f st.flash) ∧
    (∀ d : List Nat, d.length % 2 = 0 →
      localChecksum d = some (wordSum d)) ∧
    (∀ (g : Nat → Nat → Nat) (segs : List DataSegment),
      (∀ s ∈ segs, s.data.length % 2 = 0) →
      (∀ c ∈ allChunks segs, c.2.length ≤ 65534) ∧
      ((allChunks segs).find?
          (fun c => !(g (c.1 % 4294967296) c.2.length == wordSum c.2)) = none →
        verifySegmentsByChecksum (fun a n => some (g a n)) segs =
          some (.ok ())) ∧
      (∀ c, (allChunks segs).find?
          (fun c => !(g (c.1 % 4294967296) c.2.length == wordSum c.2)) = some c →
        verifySegmentsByChecksum (fun a n => some (g a n)) segs =
          some (.error (.mismatch (c.1 % 4294967296)
            (g (c.1 % 4294967296) c.2.length) (wordSum c.2))))) := by
  refine ⟨fun st f => rfl, fun d he => localChecksum_eq_wordSum d he, ?_⟩
  intro g segs heven
  refine ⟨?_, ?_, ?_⟩
  · intro c hc
    simp only [allChunks, List.mem_flatMap] at hc
    obtain ⟨s, _, hcs⟩ := hc
    exact chunkList_length_le s.address s.data c hcs
  · intro hfind
    rw [verifySegments_char g segs heven, hfind]
  · intro c hfind
    rw [verifySegments_char g segs heven, hfind]


/-- Concrete instance of claim C7, the spec's checksum example: data
`[0x01, 0x02, 0x03, 0x04]` has local checksum `0x0201 + 0x0403 = 0x0604`;
a device returning `0x0604` verifies successfully. -/
theorem claim_C7_witness :
    verifySegmentsByChecksum (fun _ _ => some 0x0604)
      [⟨0x800, [0x01, 0x02, 0x03, 0x04]⟩] = some (Except.ok ()) := by
  have h := (claim_C7.2.2 (fun _ _ => (0x0604 : Nat))
    [⟨0x800, [0x01, 0x02, 0x03, 0x04]⟩] (by decide)).2.1
  have hchunk : chunkList 0x800 [0x01, 0x02, 0x03, 0x04] =
      [(0x800, [0x01, 0x02, 0x03, 0x04])] := by
    rw [chunkList, dif_neg (by simp)]
    rw [chunkList]
    simp
  have hfind : (allChunks [⟨0x800, [0x01, 0x02, 0x03, 0x04]⟩]).find?
      (fun c => !((fun _ _ => (0x0604 : Nat)) (c.1 % 4294967296) c.2.length ==
        wordSum c.2)) = none := by
    rw [show allChunks [⟨0x800, [0x01, 0x02, 0x03, 0x04]⟩] =
      chunkList 0x800 [0x01, 0x02, 0x03, 0x04] from by simp [allChunks]]
    rw [hchunk]
    apply List.find?_eq_none.mpr
    intro c hc
    rw [List.mem_singleton.mp hc]
    show ¬ ((!((0x0604 : Nat) == wordSum [0x01, 0x02, 0x03, 0x04])) = true)
    have : wordSum [0x01, 0x02, 0x03, 0x04] = 0x0604 := by decide
    rw [this]
    simp
  exact h hfind


theorem models_congr (w : Nat) (m : Nat → Option (List Nat))
    (val val' : Nat → Option Nat) (h : Models w m val)
    (hv : ∀ x, val x = val' x) : Models w m val' := by
  have hfe : val = val' := funext hv
  rw [← hfe]
  exact h


theorem getD_set_self (l : List Nat) (i x : Nat) (h : i < l.length) :
    (l.set i x).getD i 0 = x := by
  simp [List.getD_eq_getElem?_getD, List.getElem?_set_self h]


theorem getD_set_ne (l : List Nat) (i j x : Nat) (h : i ≠ j) :
    (l.set i x).getD j 0 = l.getD j 0 := by
  simp [List.getD_eq_getElem?_getD, List.getElem?_set_ne h]


theorem getD_replicate_ff (n i : Nat) (h : i < n) :
    (List.replicate n (0xFF : Nat)).getD i 0 = 0xFF := by
  simp [List.getD_eq_getElem?_getD, List.getElem?_replicate_of_lt h]


theorem models_putByte (w k : Nat) (hw : w = 2 ^ k) (hk : k ≤ 32)
    (m : Nat → Option (List Nat)) (val : Nat → Option Nat)
    (a b : Nat) (ha : a < 4294967296) (hm : Models w m val) :
    Models w (putByte w m a b) (fun x => if x = a then some b else val x) := by
  have hwpos : 0 < w := by
    rw [hw]
    positivity
  have halign : alignDown32 a w = a - a % w := by
    rw [hw]
    exact alignDown32_eq a k hk ha
  have hmodlt : a % w < w := Nat.mod_lt a hwpos
  have hmodle : a % w ≤ a := Nat.mod_le a w
  have hrowmod : (a - a % w) % w = 0 := by
    have h := Nat.div_add_mod a w
    have h2 : a - a % w = w * (a / w) := by omega
    rw [h2]
    exact Nat.mul_mod_right w (a / w)
  have hputeq : ∀ r, putByte w m a b r =
      if r = a - a % w then
        some (((m (a - a % w)).getD (List.replicate w 0xFF)).set (a % w) b)
      else m r := by
    intro r
    unfold putByte
    rw [halign]
    have hidx : a % 4294967296 - (a - a % w) = a % w := by
      have h1 : a % 4294967296 = a := Nat.mod_eq_of_lt ha
      omega
    rw [hidx]
  have hrowa : a - a % w + a % w = a := by omega
  intro row
  by_cases hr : row = a - a % w
  · subst hr
    constructor
    · constructor
      · intro _
        refine ⟨hrowmod, a % w, hmodlt, ?_⟩
        show (if a - a % w + a % w = a then some b
          else val (a - a % w + a % w)).isSome = true
        rw [if_pos hrowa]
        rfl
      · intro _
        rw [hputeq, if_pos rfl]
        rfl
    · intro blk hblk
      rw [hputeq, if_pos rfl] at hblk
      cases hmr : m (a - a % w) with
      | none =>
        rw [hmr] at hblk
        have hbe := Option.some.inj hblk
        subst hbe
        have hvnone : ∀ pos, pos < w → val (a - a % w + pos) = none := by
          intro pos hpos
          cases hv : val (a - a % w + pos) with
          | none => rfl
          | some v =>
            exfalso
            have hsome : (m (a - a % w)).isSome = true :=
              (hm (a - a % w)).1.mpr ⟨hrowmod, pos, hpos, by rw [hv]; rfl⟩
            rw [hmr] at hsome
            simp at hsome
        constructor
        · simp
        · intro pos hpos
          simp only [Option.getD_none]
          by_cases hp : pos = a % w
          · subst hp
            rw [getD_set_self _ _ _ (by simp [hpos])]
            show b = (if a - a % w + a % w = a then some b
              else val (a - a % w + a % w)).getD 255
            rw [if_pos hrowa]
            rfl
          · rw [getD_set_ne _ _ _ _ (fun he => hp he.symm),
              getD_replicate_ff _ _ hpos]
            have hxa : a - a % w + pos ≠ a := by omega
            show (0xFF : Nat) = (if a - a % w + pos = a then some b
              else val (a - a % w + pos)).getD 255
            rw [if_neg hxa, hvnone pos hpos]
            rfl
      | some old =>
        rw [hmr] at hblk
        have hbe := Option.some.inj hblk
        subst hbe
        obtain ⟨hlen, hcont⟩ := (hm (a - a % w)).2 old hmr
        constructor
        · simp [hlen]
        · intro pos hpos
          simp only [Option.getD_some]
          by_cases hp : pos = a % w
          · subst hp
            rw [getD_set_self _ _ _ (by rw [hlen]; exact hpos)]
            show b = (if a - a % w + a % w = a then some b
              else val (a - a % w + a % w)).getD 255
            rw [if_pos hrowa]
            rfl
          · rw [getD_set_ne _ _ _ _ (fun he => hp he.symm), hcont pos hpos]
            have hxa : a - a % w + pos ≠ a := by omega
            show (val (a - a % w + pos)).getD 255 =
              (if a - a % w + pos = a then some b
                else val (a - a % w + pos)).getD 255
            rw [if_neg hxa]
  · have hput : putByte w m a b row = m row := by
      rw [hputeq, if_neg hr]
    have hne : ∀ pos, pos < w → row % w = 0 → row + pos ≠ a := by
      intro pos hpos hal hcontra
      apply hr
      have h1 : (row + pos) % w = pos := by
        rw [Nat.add_mod, hal]
        simp [Nat.mod_eq_of_lt hpos]
      rw [← hcontra, h1]
      omega
    constructor
    · rw [hput]
      rw [(hm row).1]
      constructor
      · rintro ⟨hal, pos, hpos, hsome⟩
        refine ⟨hal, pos, hpos, ?_⟩
        show (if row + pos = a then some b else val (row + pos)).isSome = true
        rw [if_neg (hne pos hpos hal)]
        exact hsome
      · rintro ⟨hal, pos, hpos, hsome⟩
        refine ⟨hal, pos, hpos, ?_⟩
        have hsome' : (if row + pos = a then some b
            else val (row + pos)).isSome = true := hsome
        rwa [if_neg (hne pos hpos hal)] at hsome'
    · intro blk hblk
      rw [hput] at hblk
      obtain ⟨hlen, hcont⟩ := (hm row).2 blk hblk
      have hal : row % w = 0 :=
        ((hm row).1.mp (by rw [hblk]; rfl)).1
      refine ⟨hlen, fun pos hpos => ?_⟩
      rw [hcont pos hpos]
      show (val (row + pos)).getD 255 =
        (if row + pos = a then some b else val (row + pos)).getD 255
      rw [if_neg (hne pos hpos hal)]


theorem models_putBytes (w k : Nat) (hw : w = 2 ^ k) (hk : k ≤ 32) :
    ∀ (rest : List Nat) (a0 : Nat) (m : Nat → Option (List Nat))
      (val : Nat → Option Nat), a0 + rest.length ≤ 4294967296 →
      Models w m val →
      Models w (putBytes w m a0 rest) (fun x =>
        if a0 ≤ x ∧ x < a0 + rest.length then some (rest.getD (x - a0) 0)
        else val x)
  | [], a0, m, val, hb, hm => by
    apply models_congr w m val _ hm
    intro x
    rw [if_neg (by simp)]
  | b :: rest, a0, m, val, hb, hm => by
    have hstep := models_putByte w k hw hk m val a0 b
      (by simp only [List.length_cons] at hb; omega) hm
    have ih := models_putBytes w k hw hk rest (a0 + 1) (putByte w m a0 b) _
      (by simp only [List.length_cons] at hb; omega) hstep
    apply models_congr _ _ _ _ ih
    intro x
    by_cases h1 : x = a0
    · subst h1
      rw [if_neg (by omega), if_pos rfl,
        if_pos ⟨le_rfl, by simp only [List.length_cons]; omega⟩]
      simp
    · by_cases h2 : a0 + 1 ≤ x ∧ x < a0 + 1 + rest.length
      · rw [if_pos h2, if_pos ⟨by omega, by simp only [List.length_cons]; omega⟩]
        have he : x - a0 = (x - (a0 + 1)) + 1 := by omega
        rw [he]
        simp
      · rw [if_neg h2, if_neg h1,
          if_neg (by simp only [List.length_cons]; omega)]


theorem models_buildBlocks (segs : List DataSegment) (w k : Nat)
    (hw : w = 2 ^ k) (hk : k ≤ 32)
    (hb : ∀ s ∈ segs, s.address + s.data.length ≤ 4294967296) :
    Models w (buildBlocks segs w) (assigns segs) := by
  induction segs using List.reverseRecOn with
  | nil =>
    intro row
    constructor
    · simp [buildBlocks, assigns]
    · intro blk hblk
      exact absurd hblk (by simp [buildBlocks])
  | append_singleton l s ih =>
    have hbl : ∀ t ∈ l, t.address + t.data.length ≤ 4294967296 :=
      fun t ht => hb t (by simp [ht])
    have hbs : s.address + s.data.length ≤ 4294967296 := hb s (by simp)
    have hstep := models_putBytes w k hw hk s.data s.address
      (buildBlocks l w) (assigns l) hbs (ih hbl)
    have hbb : buildBlocks (l ++ [s]) w =
        putBytes w (buildBlocks l w) s.address s.data := by
      simp [buildBlocks, List.foldl_append]
    rw [hbb]
    apply models_congr _ _ _ _ hstep
    intro x
    show (if s.address ≤ x ∧ x < s.address + s.data.length then
        some (s.data.getD (x - s.address) 0)
      else assigns l x) = assigns (l ++ [s]) x
    simp [assigns, List.foldl_append]


theorem assigns_isSome_iff (segs : List DataSegment) (a : Nat) :
    (assigns segs a).isSome ↔ Covered segs a := by
  induction segs using List.reverseRecOn with
  | nil => simp [assigns, Covered]
  | append_singleton l s ih =>
    have hstep : assigns (l ++ [s]) a =
        if s.address ≤ a ∧ a < s.address + s.data.length then
          some (s.data.getD (a - s.address) 0)
        else assigns l a := by
      simp [assigns, List.foldl_append]
    rw [hstep]
    by_cases hc : s.address ≤ a ∧ a < s.address + s.data.length
    · rw [if_pos hc]
      refine ⟨fun _ => ⟨s, by simp, hc⟩, fun _ => rfl⟩
    · rw [if_neg hc, ih]
      constructor
      · rintro ⟨t, ht, hcov⟩
        exact ⟨t, by simp [ht], hcov⟩
      · rintro ⟨t, ht, hcov⟩
        rcases List.mem_append.mp ht with ht | ht
        · exact ⟨t, ht, hcov⟩
        · rw [List.mem_singleton.mp ht] at hcov
          exact absurd hcov hc


theorem align_row_add (w row pos : Nat) (hwpos : 0 < w) (hrow : row % w = 0)
    (hpos : pos < w) : (row + pos) - (row + pos) % w = row := by
  have h1 : (row + pos) % w = pos := by
    rw [Nat.add_mod, hrow]
    simp [Nat.mod_eq_of_lt hpos]
  omega


/-- Claim C6: for a power-of-two row size W, the block map built by
`writeSegments` contains exactly the W-aligned rows covered by at least
one segment byte; each block is W bytes; position `pos` of row `row`
holds the byte the segments assign to address `row + pos` (last segment
wins) and `0xFF` where no segment assigns one — so a fully covered row
equals the segments' union and gaps are `0xFF`. -/
theorem claim_C6 (segs : List DataSegment) (w k : Nat) (hw : w = 2 ^ k)
    (hk : k ≤ 32) (hb : ∀ s ∈ segs, s.address + s.data.length ≤ 4294967296) :
    ∀ row : Nat,
      ((buildBlocks segs w row).isSome ↔
        row % w = 0 ∧ ∃ a, Covered segs a ∧ a - a % w = row) ∧
      (∀ blk, buildBlocks segs w row = some blk →
        blk.length = w ∧
        ∀ pos, pos < w →
          blk.getD pos 0 = (assigns segs (row + pos)).getD 0xFF) := by
  have hm := models_buildBlocks segs w k hw hk hb
  have hwpos : 0 < w := by
    rw [hw]
    positivity
  intro row
  obtain ⟨h1, h2⟩ := hm row
  refine ⟨?_, h2⟩
  rw [h1]
  constructor
  · rintro ⟨hal, pos, hpos, hsome⟩
    exact ⟨hal, row + pos, (assigns_isSome_iff segs (row + pos)).mp hsome,
      align_row_add w row pos hwpos hal hpos⟩
  · rintro ⟨hal, a, hcov, harow⟩
    have hmodle : a % w ≤ a := Nat.mod_le a w
    refine ⟨hal, a % w, Nat.mod_lt a hwpos, ?_⟩
    have he : row + a % w = a := by omega
    rw [he]
    exact (assigns_isSome_iff segs a).mpr hcov


/-- Concrete instance of claim C6: the spec's cross-row example segment
`{0x83F, [0x11, 0x22, 0x33]}` with W = 64, at row `0x800`. -/
theorem claim_C6_witness :
    ((buildBlocks [⟨0x83F, [0x11, 0x22, 0x33]⟩] 64 0x800).isSome ↔
      0x800 % 64 = 0 ∧ ∃ a, Covered [⟨0x83F, [0x11, 0x22, 0x33]⟩] a ∧
        a - a % 64 = 0x800) ∧
    (∀ blk, buildBlocks [⟨0x83F, [0x11, 0x22, 0x33]⟩] 64 0x800 = some blk →
      blk.length = 64 ∧
      ∀ pos, pos < 64 →
        blk.getD pos 0 =
          (assigns [⟨0x83F, [0x11, 0x22, 0x33]⟩] (0x800 + pos)).getD 0xFF) :=
  claim_C6 [⟨0x83F, [0x11, 0x22, 0x33]⟩] 64 6 (by norm_num) (by norm_num)
    (by decide) 0x800


end Microchipboot
